import Mathlib

/-!
Shallow embedding of the translator-agent repository (Markdown translation
pipeline) and proofs about its segmentation, pipeline, terminology and
orchestration behaviour.

Source files embedded:
- `src/translator/models.py` (data model)
- `src/translator/utils.py` (`is_code_block`)
- `src/translator/processor.py` (segmenter, per-file and per-directory
  orchestration, ordered write-back)
- `src/translator/translator.py` (per-unit pipeline)
- `src/translator/api_client.py` (gateway fallback behaviour)
- `src/translator/terminology_manager.py` (glossary merge and lookup)

File I/O, logging and the network call itself are abstracted: the raw model
call becomes an oracle returning `Except String String`, and per-file
processing in the directory walk becomes a function from the file path to an
`Except`-wrapped `TranslationResult`.
-/

/-- `TranslationUnit` from `models.py`: every field defaults to empty. -/
structure TranslationUnit where
  original_text : String := ""
  translation : String := ""
  polished_translation : String := ""
  technical_terms : List (String × String) := []
  suggestions : String := ""
deriving Repr, DecidableEq, Inhabited

/-- `TranslationResult` from `models.py`. -/
structure TranslationResult where
  success : Bool := true
  output_file : String := ""
  error_message : String := ""
deriving Repr, DecidableEq, Inhabited

/-- Python `sub in s` / `s.find(sub) >= 0` on character lists: some suffix of
the text starts with the pattern. -/
def listContains (sub : List Char) : List Char → Bool
  | [] => sub.isPrefixOf []
  | c :: rest => sub.isPrefixOf (c :: rest) || listContains sub rest

/-- Python `line.find("```") >= 0` (fence-marker containment test used both by
the segmenter and by `is_code_block`). -/
def containsFence (s : String) : Bool := listContains "```".data s.data

/-- `is_code_block` from `utils.py`: `unit.original_text.find("```") >= 0`. -/
def is_code_block (unit : TranslationUnit) : Bool := containsFence unit.original_text

/-- Helper for `splitlines`: accumulates the current (reversed) line and cuts
at `"\r\n"`, `"\r"` or `"\n"`. -/
def splitlinesAux : List Char → List Char → List String
  | [], [] => []
  | [], acc => [String.mk acc.reverse]
  | '\r' :: '\n' :: rest, acc => String.mk acc.reverse :: splitlinesAux rest []
  | '\r' :: rest, acc => String.mk acc.reverse :: splitlinesAux rest []
  | '\n' :: rest, acc => String.mk acc.reverse :: splitlinesAux rest []
  | c :: rest, acc => splitlinesAux rest (c :: acc)

/-- Python `str.splitlines()` restricted to the common `"\n"`, `"\r\n"` and
`"\r"` line boundaries (the exotic Unicode boundaries are not modelled). -/
def splitlines (s : String) : List String := splitlinesAux s.data []

/-- `Processor.min_unit_length` (`processor.py`, constructor): size threshold
for prose units. -/
def min_unit_length : Nat := 4000

/-- Loop state of `Processor._extract_translation_units`: emitted units, the
accumulating unit and the `in_code_block` flag. -/
structure SegState where
  units : List TranslationUnit
  current : TranslationUnit
  in_code_block : Bool
deriving Repr, DecidableEq, Inhabited

/-- One iteration of the line loop in `Processor._extract_translation_units`. -/
def segStep (st : SegState) (line : String) : SegState :=
  if containsFence line then
    if st.in_code_block then
      { units := st.units ++
          [{ st.current with original_text := st.current.original_text ++ line }],
        current := {},
        in_code_block := !st.in_code_block }
    else
      { units := if st.current.original_text ≠ "" then st.units ++ [st.current] else st.units,
        current := { original_text := line ++ "\n" },
        in_code_block := !st.in_code_block }
  else
    let flushed :=
      if st.current.original_text.length + line.length > min_unit_length then
        (st.units ++ [st.current], ({} : TranslationUnit))
      else
        (st.units, st.current)
    { units := flushed.1,
      current := { flushed.2 with original_text := flushed.2.original_text ++ line ++ "\n" },
      in_code_block := st.in_code_block }

/-- `Processor._extract_translation_units`: line loop followed by the final
flush of a non-empty buffer. -/
def extract_translation_units (markdown_content : String) : List TranslationUnit :=
  let st := (splitlines markdown_content).foldl segStep ⟨[], {}, false⟩
  if st.current.original_text ≠ "" then st.units ++ [st.current] else st.units

/-- Outcome oracle for the raw request in `ApiClient._call_api`: one entry per
prompt family, each taking the texts interpolated into the prompt and either
returning the generated text or failing with a transport/service error
(timeout and transport retries happen below this boundary). -/
structure Gateway where
  translateResp : String → String → Except String String
  reviewResp : String → String → String → Except String String
  polishResp : String → String → String → String → Except String String

/-- Python `str.lower()` (ASCII model). -/
def pyLower (s : String) : String := String.mk (s.data.map Char.toLower)

/-- Python `str.strip()` (whitespace model via `Char.isWhitespace`). -/
def pyStrip (s : String) : String :=
  String.mk (((s.data.dropWhile Char.isWhitespace).reverse.dropWhile Char.isWhitespace).reverse)

/-- `ApiClient.translate_text`: one request; on failure the original text is
returned unchanged.  The second component counts gateway invocations. -/
def translate_text (gw : Gateway) (text terminology : String) : String × Nat :=
  match gw.translateResp text terminology with
  | .ok r => (r, 1)
  | .error _ => (text, 1)

/-- The fixed sentinel `ApiClient.review_translation` returns when the review
request fails or produces an empty response. -/
def no_suggestions : String := "无法提供修改建议"

/-- `ApiClient.review_translation`: one request; an error, empty or
whitespace-only response degrades to the sentinel message. -/
def review_translation (gw : Gateway) (original translation terminology : String) :
    String × Nat :=
  match gw.reviewResp original translation terminology with
  | .ok r => (if r = "" || pyStrip r = "" then no_suggestions else r, 1)
  | .error _ => (no_suggestions, 1)

/-- `ApiClient.polish_translation`: one request; on failure the draft
translation is returned unchanged. -/
def polish_translation (gw : Gateway) (original translation suggestions terminology : String) :
    String × Nat :=
  match gw.polishResp original translation suggestions terminology with
  | .ok r => (r, 1)
  | .error _ => (translation, 1)

/-- Association-list view of the `self.terminology` dict (key, value pairs in
insertion order): membership/lookup by key. -/
def dictLookup (d : List (String × String)) (k : String) : Option String :=
  (d.find? (fun p => p.1 == k)).map (·.2)

/-- Python dict assignment `d[k] = v` on the association-list view. -/
def dictInsert (d : List (String × String)) (k v : String) : List (String × String) :=
  if (d.find? (fun p => p.1 == k)).isSome then
    d.map (fun p => if p.1 == k then (k, v) else p)
  else
    d ++ [(k, v)]

/-- Loop body of `TerminologyManager.extract_terms` for one parsed term record.
State is (terminology dict, `new_terms`).  Records coming back from
`ApiClient.extract_terms` always carry string `english`/`chinese` fields, so
the `isinstance`/key-presence guards of the source are vacuous here. -/
def mergeTermStep (st : List (String × String) × List (String × String))
    (term : String × String) : List (String × String) × List (String × String) :=
  let english := pyStrip term.1
  let chinese := pyStrip term.2
  if english = "" then st
  else
    let english_lower := pyLower english
    let chinese :=
      match dictLookup st.1 english_lower with
      | some v => if v ≠ "" then v else chinese
      | none => chinese
    if english_lower ≠ "" ∧ dictLookup st.1 english_lower = none then
      (dictInsert st.1 english_lower chinese,
       if chinese ≠ "" then st.2 ++ [(english, chinese)] else st.2)
    else
      st

/-- `TerminologyManager.extract_terms`: short texts are skipped; otherwise the
parsed records (here a parameter, standing for the gateway's parsed response)
are merged into the dict.  Returns (updated dict, newly added pairs). -/
def extract_terms (terms_list : List (String × String))
    (terminology : List (String × String)) (text : String) :
    List (String × String) × List (String × String) :=
  if text.length < 30 then (terminology, [])
  else terms_list.foldl mergeTermStep (terminology, [])

/-- `TerminologyManager.get_terminology_string`: "eng: chn" lines for the
pairs with a non-empty target; empty input renders as the empty string. -/
def get_terminology_string (terms : List (String × String)) : String :=
  if terms ≠ [] then
    String.intercalate "\n" ((terms.filter (fun p => p.2 ≠ "")).map (fun p => p.1 ++ ": " ++ p.2))
  else ""

/-- Python regex `\w` (ASCII model): letters, digits and underscore. -/
def isWordChar (c : Char) : Bool := c.isAlphanum || c = '_'

/-- Word-character test lifted to an optional character; out-of-string
positions count as non-word, matching the regex `\b` convention. -/
def isWordOpt : Option Char → Bool
  | none => false
  | some c => isWordChar c

/-- Tail of a `\b pat \b` match: consumes `pat` case-insensitively and then
checks the closing word boundary.  `prev` is the last text character consumed
so far. -/
def matchEndBoundary (pat : List Char) (s : List Char) (prev : Option Char) : Bool :=
  match pat, s with
  | [], rest => isWordOpt prev != isWordOpt rest.head?
  | _ :: _, [] => false
  | p :: ps, c :: cs => (p.toLower == c.toLower) && matchEndBoundary ps cs (some c)

/-- Scans the text for a `\b pat \b` match starting at any position; `prev` is
the character just before the current position. -/
def searchWordFrom (pat : List Char) : Option Char → List Char → Bool
  | prev, [] => (isWordOpt prev != false) && matchEndBoundary pat [] prev
  | prev, c :: cs =>
    ((isWordOpt prev != isWordOpt (some c)) && matchEndBoundary pat (c :: cs) prev) ||
      searchWordFrom pat (some c) cs

/-- `re.search(r"\b" + re.escape(term) + r"\b", text, re.IGNORECASE)` is not
`None` (ASCII case folding; `re.escape` makes the term literal). -/
def searchWord (term text : String) : Bool := searchWordFrom term.data none text.data

/-- The heuristic plural literal built in `TerminologyManager.find_relevant_terms`:
`-es` after s/x/z/ch/sh, `-ies` for consonant+y, else `-s`. -/
def pluralForm (eng : String) : String :=
  if eng.endsWith "s" || eng.endsWith "x" || eng.endsWith "z" ||
      eng.endsWith "ch" || eng.endsWith "sh" then
    eng ++ "es"
  else if eng.endsWith "y" && decide (eng.length > 1) &&
      !(['a', 'e', 'i', 'o', 'u'].contains (eng.data.getD (eng.data.length - 2) ' ')) then
    String.mk eng.data.dropLast ++ "ies"
  else
    eng ++ "s"

/-- Per-entry test of the loop in `TerminologyManager.find_relevant_terms`:
skip empty source/target, then whole-word match, then the plural-form match
(only when the term does not match its own plural pattern). -/
def relevantPred (text : String) (p : String × String) : Bool :=
  if p.1 = "" || p.2 = "" then false
  else if searchWord p.1 text then true
  else
    let plural := pluralForm p.1
    !searchWord plural p.1 && searchWord plural text

/-- `TerminologyManager.find_relevant_terms`: short text or empty glossary
returns empty; otherwise the dict items are stably sorted by descending source
length and each entry is tested independently. -/
def find_relevant_terms (terminology : List (String × String)) (text : String) :
    List (String × String) :=
  if text = "" || decide (text.length < 10) then []
  else if terminology = [] then []
  else
    let sorted_terms := terminology.mergeSort (fun a b => decide (b.1.length ≤ a.1.length))
    sorted_terms.filter (relevantPred text)

/-- `Translator.translate_unit`: code units pass through untouched with no
gateway call; otherwise `_translate_text`, `_review_translation` and
`_polish_translation` run in sequence.  The second component counts raw
gateway invocations. -/
def translate_unit (gw : Gateway) (terminology : List (String × String))
    (unit : TranslationUnit) : TranslationUnit × Nat :=
  if is_code_block unit then
    ({ unit with translation := unit.original_text,
                 polished_translation := unit.original_text }, 0)
  else
    let terms := find_relevant_terms terminology unit.original_text
    let tstr := if terms ≠ [] then get_terminology_string terms else ""
    let tr := translate_text gw unit.original_text tstr
    let u1 := { unit with technical_terms := terms, translation := tr.1 }
    let r2 : TranslationUnit × Nat :=
      if u1.translation = "" || u1.translation = u1.original_text then
        ({ u1 with suggestions := "" }, 0)
      else
        let tstr2 := if u1.technical_terms ≠ [] then get_terminology_string u1.technical_terms else ""
        let sg := review_translation gw u1.original_text u1.translation tstr2
        ({ u1 with suggestions := sg.1 }, sg.2)
    let u2 := r2.1
    let r3 : TranslationUnit × Nat :=
      if u2.translation = "" then
        ({ u2 with polished_translation := "" }, 0)
      else if u2.translation = u2.original_text then
        ({ u2 with polished_translation := u2.translation }, 0)
      else
        let tstr3 := if u2.technical_terms ≠ [] then get_terminology_string u2.technical_terms else ""
        let p := polish_translation gw u2.original_text u2.translation u2.suggestions tstr3
        ({ u2 with polished_translation := p.1 }, p.2)
    (r3.1, tr.2 + r2.2 + r3.2)

/-- `process_unit` inside `Processor._process_translation_units`: one pool
task, returning the original index and the unit's polished translation. -/
def process_unit (gw : Gateway) (terminology : List (String × String))
    (i : Nat) (unit : TranslationUnit) : Nat × String :=
  (i, (translate_unit gw terminology unit).1.polished_translation)

/-- The `results` dict of `Processor._process_translation_units` after the
pool drains: tasks are `(i, units[i])` for every index, and `order` is the
sequence in which they complete (`as_completed`).  Out-of-range indices never
occur for a completion order of the submitted tasks. -/
def collect_results (gw : Gateway) (terminology : List (String × String))
    (units : List TranslationUnit) (order : List Nat) : List (Nat × String) :=
  order.filterMap (fun i => (units[i]?).map (fun u => process_unit gw terminology i u))

/-- `Processor._append_to_output_file`: appends the content plus a blank-line
separator to the current file content. -/
def append_to_output_file (file content : String) : String := file ++ (content ++ "\n\n")

/-- The sequential write-back loop of `Processor._process_translation_units`:
`results[i]` for `i` in `range(len(units))`, each appended to the initially
empty output file; a missing index (Python `KeyError`) is `none`. -/
def write_results (results : List (Nat × String)) (n : Nat) : Option String :=
  (List.range n).foldlM
    (fun file i => ((results.find? (fun p => p.1 == i)).map (·.2)).map (append_to_output_file file))
    ""

/-- `Processor._process_translation_units`: concurrent collection keyed by
original index followed by the in-order write-back; the result is the final
content of the output file. -/
def process_translation_units (gw : Gateway) (terminology : List (String × String))
    (units : List TranslationUnit) (order : List Nat) : Option String :=
  write_results (collect_results gw terminology units order) units.length

/-- Success test on one file's outcome in `Processor._translate_markdown_files`:
`translate_file` either returned a result (`ok`) or raised (`error`). -/
def fileSuccess (runFile : String → Except String TranslationResult) (f : String) : Bool :=
  match runFile f with
  | .ok r => r.success
  | .error _ => false

/-- The failed-files entry one file contributes in
`Processor._translate_markdown_files`, if any. -/
def fileFailure (runFile : String → Except String TranslationResult) (f : String) :
    Option (String × String) :=
  match runFile f with
  | .ok r => if r.success then none else some (f, r.error_message)
  | .error e => some (f, e)

/-- `Processor._translate_markdown_files`: iterates over the files, counting
successes and recording `(path, message)` for failures; a raised exception is
caught and recorded, and the loop continues. -/
def translate_markdown_files (runFile : String → Except String TranslationResult)
    (files : List String) : Nat × List (String × String) :=
  files.foldl
    (fun st f =>
      match runFile f with
      | .ok r => if r.success then (st.1 + 1, st.2) else (st.1, st.2 ++ [(f, r.error_message)])
      | .error e => (st.1, st.2 ++ [(f, e)]))
    (0, [])

/-- Concatenation of a list of strings (left to right). -/
def joinStrings : List String → String
  | [] => ""
  | s :: rest => s ++ joinStrings rest

/-- The string ends with a newline character (predicate used to state the
newline-termination properties of the segmenter). -/
def endsWithNewline (s : String) : Bool := s.data.getLast? == some '\n'

/-- A document consisting of a single 4001-character line, exceeding the
segmenter size threshold on an empty buffer. -/
def overlongDoc : String := String.mk (List.replicate 4001 'a')

/-- Concrete gateway whose requests all succeed (used to instantiate
universally quantified theorems). -/
def demoGateway : Gateway :=
  ⟨fun _ _ => .ok "T", fun _ _ _ => .ok "R", fun _ _ _ _ => .ok "P"⟩

/-- Concrete gateway whose translate requests always fail. -/
def failingGateway : Gateway :=
  ⟨fun _ _ => .error "boom", fun _ _ _ => .ok "R", fun _ _ _ _ => .ok "P"⟩

/-- The batch loop of `_translate_markdown_files` from an arbitrary
accumulator: successes are counted, failures are appended in file order. -/
theorem batch_foldl_eq (runFile : String → Except String TranslationResult)
    (files : List String) (c : Nat) (acc : List (String × String)) :
    files.foldl
      (fun st f =>
        match runFile f with
        | .ok r => if r.success then (st.1 + 1, st.2) else (st.1, st.2 ++ [(f, r.error_message)])
        | .error e => (st.1, st.2 ++ [(f, e)]))
      (c, acc) =
      (c + (files.filter (fileSuccess runFile)).length,
       acc ++ files.filterMap (fileFailure runFile)) := by
  induction files generalizing c acc with
  | nil => simp
  | cons f rest ih =>
    simp only [List.foldl_cons, List.filter_cons, List.filterMap_cons]
    cases h : runFile f with
    | ok r =>
      cases hs : r.success with
      | true =>
        simp only [fileSuccess, fileFailure, h, hs, if_true]
        rw [ih]
        simp [Nat.add_comm, Nat.add_assoc, Nat.add_left_comm]
      | false =>
        simp only [fileSuccess, fileFailure, h, hs, if_false]
        rw [ih]
        simp
    | error e =>
      simp only [fileSuccess, fileFailure, h]
      rw [ih]
      simp

/-- C9: `translateDirectory` never aborts because a single file failed: a
per-file exception becomes a failed entry for that file only, processing
continues, and the result is (number of successful files, list of
(failed path, error message) in file order). -/
theorem translate_markdown_files_spec (runFile : String → Except String TranslationResult)
    (files : List String) :
    translate_markdown_files runFile files =
      ((files.filter (fileSuccess runFile)).length, files.filterMap (fileFailure runFile)) := by
  simpa using batch_foldl_eq runFile files 0 []

/-- C2: a unit whose source text contains the fence marker passes through
unchanged — translation and polished translation both equal the source text —
with zero gateway invocations. -/
theorem translate_unit_code_passthrough (gw : Gateway)
    (terminology : List (String × String)) (unit : TranslationUnit)
    (h : is_code_block unit = true) :
    (translate_unit gw terminology unit).1.translation = unit.original_text ∧
    (translate_unit gw terminology unit).1.polished_translation = unit.original_text ∧
    (translate_unit gw terminology unit).2 = 0 := by
  simp [translate_unit, h]

theorem translate_unit_code_passthrough_witness :
    is_code_block { original_text := "```\ncode\n```" } = true ∧
    ((translate_unit demoGateway [] { original_text := "```\ncode\n```" }).1.translation
        = ("```\ncode\n```" : String) ∧
      (translate_unit demoGateway [] { original_text := "```\ncode\n```" }).1.polished_translation
        = ("```\ncode\n```" : String) ∧
      (translate_unit demoGateway [] { original_text := "```\ncode\n```" }).2 = 0) :=
  ⟨by decide, translate_unit_code_passthrough demoGateway [] _ (by decide)⟩

/-- C3: for a non-code unit, when every translate request fails the pipeline
still terminates normally: the translation falls back to the source text, the
review step is skipped (empty suggestions), the polish step short-circuits,
and the polished translation equals the source text after exactly the one
translate invocation. -/
theorem translate_unit_translate_failure (gw : Gateway)
    (terminology : List (String × String)) (unit : TranslationUnit)
    (hcode : is_code_block unit = false)
    (hfail : ∀ t s, ∃ e, gw.translateResp t s = .error e) :
    (translate_unit gw terminology unit).1.polished_translation = unit.original_text ∧
    (translate_unit gw terminology unit).1.translation = unit.original_text ∧
    (translate_unit gw terminology unit).1.suggestions = "" ∧
    (translate_unit gw terminology unit).2 = 1 := by
  obtain ⟨e, he⟩ := hfail unit.original_text
    (if find_relevant_terms terminology unit.original_text = [] then ""
     else get_terminology_string (find_relevant_terms terminology unit.original_text))
  simp only [translate_unit, hcode, Bool.false_eq_true, if_false, ite_not, translate_text, he]
  by_cases hempty : unit.original_text = "" <;>
    simp [hempty]

theorem translate_unit_translate_failure_witness :
    is_code_block { original_text := "hello world" } = false ∧
    (∀ t s, ∃ e, failingGateway.translateResp t s = .error e) ∧
    ((translate_unit failingGateway [] { original_text := "hello world" }).1.polished_translation
        = ("hello world" : String) ∧
      (translate_unit failingGateway [] { original_text := "hello world" }).1.translation
        = ("hello world" : String) ∧
      (translate_unit failingGateway [] { original_text := "hello world" }).1.suggestions = "" ∧
      (translate_unit failingGateway [] { original_text := "hello world" }).2 = 1) :=
  ⟨by decide, fun t s => ⟨"boom", rfl⟩,
    translate_unit_translate_failure failingGateway [] _ (by decide) (fun t s => ⟨"boom", rfl⟩)⟩

/-- A key found in the left part of an association list is found in the
concatenation with the same value. -/
theorem dictLookup_append_left {d1 d2 : List (String × String)} {k v : String}
    (h : dictLookup d1 k = some v) : dictLookup (d1 ++ d2) k = some v := by
  simp only [dictLookup, List.find?_append] at *
  cases hf : d1.find? (fun p => p.1 == k) with
  | none => simp [hf] at h
  | some p => simp [hf] at h ⊢; exact h

/-- Lower-casing (`str.lower()`) preserves non-emptiness. -/
theorem pyLower_ne_empty {s : String} (h : s ≠ "") : pyLower s ≠ "" := by
  intro hc
  apply h
  have hdata : s.data.map Char.toLower = [] := congrArg String.data hc
  apply String.ext
  simpa using hdata

/-- One merge step either leaves the state unchanged (blank source, or key
already present) or appends a fresh key to the dict, reporting the pair when
its target is non-empty. -/
theorem mergeTermStep_cases (st : List (String × String) × List (String × String))
    (t : String × String) :
    mergeTermStep st t = st ∨
    (∃ ch, dictLookup st.1 (pyLower (pyStrip t.1)) = none ∧ pyStrip t.1 ≠ "" ∧
      mergeTermStep st t = (st.1 ++ [(pyLower (pyStrip t.1), ch)],
        if ch ≠ "" then st.2 ++ [(pyStrip t.1, ch)] else st.2)) := by
  by_cases he : pyStrip t.1 = ""
  · left; simp [mergeTermStep, he]
  · cases hlook : dictLookup st.1 (pyLower (pyStrip t.1)) with
    | some v =>
      left
      simp [mergeTermStep, he, hlook]
    | none =>
      right
      refine ⟨pyStrip t.2, rfl, he, ?_⟩
      have hfind : st.1.find? (fun p => p.1 == pyLower (pyStrip t.1)) = none := by
        simpa [dictLookup] using hlook
      simp [mergeTermStep, he, hlook, dictInsert, hfind, pyLower_ne_empty he]

/-- Invariant of the merge loop: a key already present keeps its value, and
every reported pair is either from the starting accumulator or carries a key
different from it. -/
theorem mergeTerm_foldl_preserves (terms_list : List (String × String))
    (tm acc : List (String × String)) (k v : String)
    (h : dictLookup tm k = some v) :
    dictLookup (terms_list.foldl mergeTermStep (tm, acc)).1 k = some v ∧
    ∀ p ∈ (terms_list.foldl mergeTermStep (tm, acc)).2,
      p ∈ acc ∨ pyLower p.1 ≠ k := by
  induction terms_list generalizing tm acc with
  | nil => exact ⟨h, fun p hp => .inl hp⟩
  | cons t rest ih =>
    simp only [List.foldl_cons]
    rcases mergeTermStep_cases (tm, acc) t with heq | ⟨ch, hlook, hne, heq⟩
    · rw [heq]
      exact ih tm acc h
    · rw [heq]
      have hkne : pyLower (pyStrip t.1) ≠ k := by
        intro hkk
        rw [hkk, h] at hlook
        exact Option.noConfusion hlook
      have h1 : dictLookup (tm ++ [(pyLower (pyStrip t.1), ch)]) k = some v :=
        dictLookup_append_left h
      by_cases hch : ch ≠ ""
      · have := ih (tm ++ [(pyLower (pyStrip t.1), ch)]) (acc ++ [(pyStrip t.1, ch)]) h1
        simp only [if_pos hch] at *
        refine ⟨this.1, fun p hp => ?_⟩
        rcases this.2 p hp with hmem | hne2
        · rcases List.mem_append.mp hmem with hmem | hmem
          · exact .inl hmem
          · simp at hmem
            right
            rw [hmem]
            exact hkne
        · exact .inr hne2
      · have := ih (tm ++ [(pyLower (pyStrip t.1), ch)]) acc h1
        simp only [if_neg hch] at *
        exact this

/-- C6: extracting a term pair whose lower-cased stripped source already sits
in the glossary with a non-empty target leaves the stored target unchanged
(the existing target wins, whatever the new target is), and no pair with that
source appears in the returned newly-added list. -/
theorem extract_terms_existing_target_wins (terms_list tm : List (String × String))
    (text : String) (e c v : String)
    (hmem : (e, c) ∈ terms_list)
    (hkey : dictLookup tm (pyLower (pyStrip e)) = some v)
    (hv : v ≠ "") :
    dictLookup (extract_terms terms_list tm text).1 (pyLower (pyStrip e)) = some v ∧
    ∀ x, (pyStrip e, x) ∉ (extract_terms terms_list tm text).2 := by
  unfold extract_terms
  split
  · refine ⟨hkey, ?_⟩
    simp
  · have h := mergeTerm_foldl_preserves terms_list tm [] _ _ hkey
    refine ⟨h.1, fun x hx => ?_⟩
    rcases h.2 _ hx with h' | h'
    · exact List.not_mem_nil _ h'
    · exact h' rfl

theorem extract_terms_existing_target_wins_witness :
    ("API", "接口") ∈ [(("API" : String), ("接口" : String))] ∧
    dictLookup [("api", "旧译")] (pyLower (pyStrip "API")) = some "旧译" ∧
    ("旧译" : String) ≠ "" ∧
    (dictLookup (extract_terms [("API", "接口")] [("api", "旧译")]
        "aaaaaaaaaaaaaaaaaaaaaaaaaaaaaa").1 (pyLower (pyStrip "API")) = some "旧译" ∧
      ∀ x, (pyStrip "API", x) ∉ (extract_terms [("API", "接口")] [("api", "旧译")]
        "aaaaaaaaaaaaaaaaaaaaaaaaaaaaaa").2) :=
  ⟨by decide, by decide, by decide,
    extract_terms_existing_target_wins _ _ _ _ "接口" _ (by decide) (by decide) (by decide)⟩

/-- C7 counterexample: with glossary entry ("api", "") (key present, empty
target) and extracted pair ("API", "接口"), the code leaves the stored target
empty and reports nothing — the claimed overwrite of an empty stored target
does not happen. -/
theorem extract_terms_empty_target_counterexample :
    extract_terms [("API", "接口")] [("api", "")] "aaaaaaaaaaaaaaaaaaaaaaaaaaaaaa"
      = ([("api", "")], []) ∧
    dictLookup (extract_terms [("API", "接口")] [("api", "")]
        "aaaaaaaaaaaaaaaaaaaaaaaaaaaaaa").1 "api" = some "" := by
  constructor <;> decide

/-- C7 (amended): `extract_terms` inserts a pair only when its lower-cased
stripped source key is absent from the glossary entirely; when the key is
present — even with an empty stored target — the glossary and the returned
list are left unchanged. -/
theorem extract_terms_insert_iff_absent (tm : List (String × String)) (text e c : String)
    (hlen : ¬ text.length < 30) (he : pyStrip e ≠ "") :
    (dictLookup tm (pyLower (pyStrip e)) = none →
        (extract_terms [(e, c)] tm text).1 = tm ++ [(pyLower (pyStrip e), pyStrip c)] ∧
        (extract_terms [(e, c)] tm text).2 =
          if pyStrip c ≠ "" then [(pyStrip e, pyStrip c)] else []) ∧
    (∀ v, dictLookup tm (pyLower (pyStrip e)) = some v →
        (extract_terms [(e, c)] tm text).1 = tm ∧
        (extract_terms [(e, c)] tm text).2 = []) := by
  constructor
  · intro hlook
    have hfind : tm.find? (fun p => p.1 == pyLower (pyStrip e)) = none := by
      simpa [dictLookup] using hlook
    simp [extract_terms, hlen, mergeTermStep, he, hlook, dictInsert, hfind,
      pyLower_ne_empty he]
  · intro v hlook
    simp [extract_terms, hlen, mergeTermStep, he, hlook]

theorem extract_terms_insert_iff_absent_witness :
    ¬ ("aaaaaaaaaaaaaaaaaaaaaaaaaaaaaa" : String).length < 30 ∧
    pyStrip "API" ≠ "" ∧
    ((dictLookup [("x", "y")] (pyLower (pyStrip "API")) = none →
        (extract_terms [("API", "接口")] [("x", "y")] "aaaaaaaaaaaaaaaaaaaaaaaaaaaaaa").1
          = [("x", "y")] ++ [(pyLower (pyStrip "API"), pyStrip "接口")] ∧
        (extract_terms [("API", "接口")] [("x", "y")] "aaaaaaaaaaaaaaaaaaaaaaaaaaaaaa").2
          = if pyStrip "接口" ≠ "" then [(pyStrip "API", pyStrip "接口")] else []) ∧
      (∀ v, dictLookup [("x", "y")] (pyLower (pyStrip "API")) = some v →
        (extract_terms [("API", "接口")] [("x", "y")] "aaaaaaaaaaaaaaaaaaaaaaaaaaaaaa").1
          = [("x", "y")] ∧
        (extract_terms [("API", "接口")] [("x", "y")] "aaaaaaaaaaaaaaaaaaaaaaaaaaaaaa").2
          = [])) :=
  ⟨by decide, by decide, extract_terms_insert_iff_absent [("x", "y")] _ "API" "接口"
    (by decide) (by decide)⟩

/-- C8: `find_relevant_terms` returns the empty list immediately for text
shorter than 10 characters and for the empty glossary; otherwise the returned
pairs are in descending order of source-term length and, with distinct dict
keys, no glossary term occurs twice in the result. -/
theorem find_relevant_terms_spec (tm : List (String × String)) (text : String)
    (hnodup : (tm.map Prod.fst).Nodup) :
    (text.length < 10 → find_relevant_terms tm text = []) ∧
    (tm = [] → find_relevant_terms tm text = []) ∧
    List.Sorted (fun a b : String × String => b.1.length ≤ a.1.length)
      (find_relevant_terms tm text) ∧
    ((find_relevant_terms tm text).map Prod.fst).Nodup := by
  have hmain : List.Sorted (fun a b : String × String => b.1.length ≤ a.1.length)
      (find_relevant_terms tm text) ∧
      ((find_relevant_terms tm text).map Prod.fst).Nodup := by
    unfold find_relevant_terms
    split
    · exact ⟨List.sorted_nil, List.nodup_nil⟩
    · split
      · exact ⟨List.sorted_nil, List.nodup_nil⟩
      · constructor
        · have hsorted : List.Pairwise
              (fun a b : String × String => decide (b.1.length ≤ a.1.length) = true)
              (tm.mergeSort (fun a b => decide (b.1.length ≤ a.1.length))) :=
            List.sorted_mergeSort
              (fun a b c h1 h2 => by
                simp only [decide_eq_true_eq] at *
                omega)
              (fun a b => by
                rcases Nat.le_total a.1.length b.1.length with h | h <;> simp [h])
              tm
          have hp := List.Pairwise.sublist
            (@List.filter_sublist _ (relevantPred text)
              (tm.mergeSort fun a b => decide (b.1.length ≤ a.1.length))) hsorted
          exact hp.imp (fun h => by simpa using h)
        · have hperm := List.mergeSort_perm tm (fun a b => decide (b.1.length ≤ a.1.length))
          have h1 : ((tm.mergeSort (fun a b => decide (b.1.length ≤ a.1.length))).map
              Prod.fst).Nodup :=
            List.Perm.nodup (List.Perm.map Prod.fst hperm).symm hnodup
          exact List.Nodup.sublist
            (List.Sublist.map Prod.fst (@List.filter_sublist _ (relevantPred text)
              (tm.mergeSort fun a b => decide (b.1.length ≤ a.1.length)))) h1
  refine ⟨?_, ?_, hmain.1, hmain.2⟩
  · intro hlen
    simp [find_relevant_terms, hlen]
  · intro htm
    subst htm
    simp [find_relevant_terms]

theorem find_relevant_terms_spec_witness :
    (([(("data structure" : String), ("数据结构" : String)), ("algorithm", "算法")].map
        Prod.fst).Nodup) ∧
    ((("a data structure here" : String).length < 10 →
        find_relevant_terms [("data structure", "数据结构"), ("algorithm", "算法")]
          "a data structure here" = []) ∧
      ([(("data structure" : String), ("数据结构" : String)), ("algorithm", "算法")] = [] →
        find_relevant_terms [("data structure", "数据结构"), ("algorithm", "算法")]
          "a data structure here" = []) ∧
      List.Sorted (fun a b : String × String => b.1.length ≤ a.1.length)
        (find_relevant_terms [("data structure", "数据结构"), ("algorithm", "算法")]
          "a data structure here") ∧
      ((find_relevant_terms [("data structure", "数据结构"), ("algorithm", "算法")]
          "a data structure here").map Prod.fst).Nodup) :=
  ⟨by decide, find_relevant_terms_spec _ _ (by decide)⟩

/-- Concatenation distributes over appending a final element. -/
theorem joinStrings_concat (l : List String) (s : String) :
    joinStrings (l ++ [s]) = joinStrings l ++ s := by
  induction l with
  | nil => simp [joinStrings]
  | cons x xs ih => simp [joinStrings, ih, String.append_assoc]

/-- On a fence-free line, one segmenter step preserves the total text
(emitted units plus buffer) up to appending the line and its newline. -/
theorem segStep_join (st : SegState) (line : String) (hl : containsFence line = false) :
    joinStrings (((segStep st line).units).map (·.original_text)) ++
      (segStep st line).current.original_text =
    joinStrings ((st.units).map (·.original_text)) ++ st.current.original_text ++
      (line ++ "\n") := by
  simp only [segStep, hl, Bool.false_eq_true, if_false]
  split
  · simp [joinStrings_concat, String.append_assoc]
  · simp [String.append_assoc]

/-- Running the segmenter loop over fence-free lines accumulates exactly the
newline-terminated lines. -/
theorem seg_foldl_join (lines : List String) (st : SegState)
    (h : ∀ line ∈ lines, containsFence line = false) :
    joinStrings (((lines.foldl segStep st).units).map (·.original_text)) ++
        (lines.foldl segStep st).current.original_text =
      joinStrings ((st.units).map (·.original_text)) ++ st.current.original_text ++
        joinStrings (lines.map (fun line => line ++ "\n")) := by
  induction lines generalizing st with
  | nil => simp [joinStrings]
  | cons l rest ih =>
    have hl : containsFence l = false := h l (List.mem_cons_self l rest)
    have hrest : ∀ line ∈ rest, containsFence line = false :=
      fun x hx => h x (List.mem_cons_of_mem l hx)
    simp only [List.foldl_cons, List.map_cons]
    rw [ih (segStep st l) hrest, segStep_join st l hl]
    simp [joinStrings, String.append_assoc]

/-- C10: for a document none of whose lines contains the fence marker, the
concatenation of the emitted units' source texts equals the document's lines
rejoined with a terminating newline each (segmentation of fence-free
documents is lossless up to trailing-newline normalization). -/
theorem segmentation_lossless_without_fences (content : String)
    (h : ∀ line ∈ splitlines content, containsFence line = false) :
    joinStrings ((extract_translation_units content).map (·.original_text)) =
      joinStrings ((splitlines content).map (fun line => line ++ "\n")) := by
  have key := seg_foldl_join (splitlines content) ⟨[], {}, false⟩ h
  simp only [extract_translation_units]
  split
  · simp only [List.map_append, List.map_cons, List.map_nil]
    rw [joinStrings_concat]
    simpa [joinStrings] using key
  · rename_i hc
    have hc' : (List.foldl segStep ⟨[], {}, false⟩ (splitlines content)).current.original_text
        = "" := not_ne_iff.mp hc
    rw [hc'] at key
    simpa [joinStrings] using key

theorem segmentation_lossless_without_fences_witness :
    (∀ line ∈ splitlines "# T\n\npara one\n\npara two\n", containsFence line = false) ∧
    joinStrings ((extract_translation_units "# T\n\npara one\n\npara two\n").map
        (·.original_text)) =
      joinStrings ((splitlines "# T\n\npara one\n\npara two\n").map (fun line => line ++ "\n")) :=
  ⟨by decide, segmentation_lossless_without_fences _ (by decide)⟩

/-- Appending a non-empty string on the right yields a non-empty string. -/
theorem string_append_ne_empty {t : String} (s : String) (ht : t ≠ "") : s ++ t ≠ "" := by
  intro hc
  apply ht
  have hd := congrArg String.data hc
  rw [String.data_append] at hd
  simp only [List.append_eq_nil] at hd
  apply String.ext
  rw [hd.2]

/-- A line containing the fence marker is non-empty. -/
theorem containsFence_ne_empty {line : String} (h : containsFence line = true) : line ≠ "" := by
  intro hc
  rw [hc] at h
  exact absurd h (by decide)

/-- One segmenter step on a line within the size threshold emits no empty
unit beyond those already present. -/
theorem segStep_no_empty (st : SegState) (line : String)
    (hlen : line.length ≤ min_unit_length)
    (hinv : ∀ u ∈ st.units, u.original_text ≠ "") :
    ∀ u ∈ (segStep st line).units, u.original_text ≠ "" := by
  intro u hu
  by_cases hf : containsFence line = true
  · by_cases hic : st.in_code_block = true
    · simp [segStep, hf, hic] at hu
      rcases hu with h | h
      · exact hinv u h
      · rw [h]
        exact string_append_ne_empty _ (containsFence_ne_empty hf)
    · by_cases hcur : st.current.original_text = ""
      · simp [segStep, hf, hic, hcur] at hu
        exact hinv u hu
      · simp [segStep, hf, hic, hcur] at hu
        rcases hu with h | h
        · exact hinv u h
        · rw [h]
          exact hcur
  · by_cases hcur : st.current.original_text = ""
    · have h0 : ("" : String).length = 0 := rfl
      have hng : ¬ (st.current.original_text.length + line.length > min_unit_length) := by
        rw [hcur]
        omega
      simp [segStep, hf, hng] at hu
      exact hinv u hu
    · by_cases hflush : st.current.original_text.length + line.length > min_unit_length
      · simp [segStep, hf, hflush] at hu
        rcases hu with h | h
        · exact hinv u h
        · rw [h]
          exact hcur
      · simp [segStep, hf, hflush] at hu
        exact hinv u hu

/-- The no-empty-unit invariant holds through the whole line loop when every
line respects the size threshold. -/
theorem seg_foldl_no_empty (lines : List String) (st : SegState)
    (hlines : ∀ line ∈ lines, line.length ≤ min_unit_length)
    (hinv : ∀ u ∈ st.units, u.original_text ≠ "") :
    ∀ u ∈ (lines.foldl segStep st).units, u.original_text ≠ "" := by
  induction lines generalizing st with
  | nil => exact hinv
  | cons l rest ih =>
    simp only [List.foldl_cons]
    exact ih (segStep st l)
      (fun x hx => hlines x (List.mem_cons_of_mem l hx))
      (segStep_no_empty st l (hlines l (List.mem_cons_self l rest)) hinv)

/-- C4 (amended): the size flush fires whenever appending the line would
exceed the 4000-character threshold, with no non-emptiness check on the
buffer; consequently only an over-threshold line arriving on an empty buffer
can produce an empty unit, and for every document whose lines are each at
most 4000 characters the segmenter never emits a unit with empty
source text. -/
theorem segmenter_no_empty_units_of_short_lines (content : String)
    (h : ∀ line ∈ splitlines content, line.length ≤ min_unit_length) :
    ∀ u ∈ extract_translation_units content, u.original_text ≠ "" := by
  have key := seg_foldl_no_empty (splitlines content) ⟨[], {}, false⟩ h (by simp)
  simp only [extract_translation_units]
  split
  · intro u hu
    rcases List.mem_append.mp hu with hm | hm
    · exact key u hm
    · simp at hm
      rw [hm]
      assumption
  · exact key

theorem segmenter_no_empty_units_of_short_lines_witness :
    (∀ line ∈ splitlines "hi\nthere\n", line.length ≤ min_unit_length) ∧
    ({ original_text := "hi\nthere\n" } : TranslationUnit) ∈
      extract_translation_units "hi\nthere\n" ∧
    ({ original_text := "hi\nthere\n" } : TranslationUnit).original_text ≠ "" :=
  ⟨by decide, by decide,
    segmenter_no_empty_units_of_short_lines "hi\nthere\n" (by decide) _ (by decide)⟩

/-- The line splitter leaves a newline-free block of 'a' characters as one
line appended to the pending prefix. -/
theorem splitlinesAux_replicate_a : ∀ n acc,
    splitlinesAux (List.replicate (n + 1) 'a') acc =
      [String.mk (acc.reverse ++ List.replicate (n + 1) 'a')] := by
  intro n
  induction n with
  | zero => intro acc; simp [List.replicate, splitlinesAux]
  | succ n ih =>
    intro acc
    rw [List.replicate_succ]
    show splitlinesAux (List.replicate (n + 1) 'a') ('a' :: acc) = _
    rw [ih]
    simp [List.replicate_succ]

/-- A run of 'a' characters contains no fence marker. -/
theorem listContains_fence_replicate_a : ∀ n,
    listContains "```".data (List.replicate n 'a') = false := by
  intro n
  induction n with
  | zero => decide
  | succ n ih =>
    rw [List.replicate_succ]
    show (("```".data.isPrefixOf ('a' :: List.replicate n 'a')) ||
      listContains "```".data (List.replicate n 'a')) = false
    rw [ih]
    have hpre : "```".data.isPrefixOf ('a' :: List.replicate n 'a') = false := by
      show (('`' == 'a') && (['`', '`'].isPrefixOf (List.replicate n 'a'))) = false
      rw [show ('`' == 'a') = false from by decide]
      rw [Bool.false_and]
    rw [hpre]
    rfl

/-- A single newline-free line splits into itself. -/
theorem splitlines_replicate_a (n : Nat) :
    splitlines (String.mk (List.replicate (n + 1) 'a')) =
      [String.mk (List.replicate (n + 1) 'a')] := by
  show splitlinesAux (List.replicate (n + 1) 'a') [] = _
  rw [splitlinesAux_replicate_a]
  simp

/-- Length of a replicated-character string. -/
theorem replicate_a_length (n : Nat) : (String.mk (List.replicate n 'a')).length = n := by
  show (List.replicate n 'a').length = n
  simp

/-- Equation for the segmenter step in the size-flush case. -/
theorem segStep_flush (st : SegState) (line : String)
    (hf : containsFence line = false)
    (hc : st.current.original_text.length + line.length > min_unit_length) :
    segStep st line =
      ⟨st.units ++ [st.current], { original_text := "" ++ line ++ "\n" },
        st.in_code_block⟩ := by
  simp [segStep, hf, hc]

/-- A document that splits into one over-threshold fence-free line segments
into an empty leading unit followed by the line itself. -/
theorem extract_single_long_line (content line : String)
    (hsplit : splitlines content = [line])
    (hf : containsFence line = false)
    (hlong : line.length > min_unit_length) :
    extract_translation_units content = [{}, { original_text := "" ++ line ++ "\n" }] := by
  simp only [extract_translation_units, hsplit, List.foldl_cons, List.foldl_nil]
  have hcond : ((⟨[], {}, false⟩ : SegState).current.original_text.length + line.length
      > min_unit_length) := by
    have h0 : (({} : TranslationUnit)).original_text.length = 0 := rfl
    show (({} : TranslationUnit)).original_text.length + line.length > min_unit_length
    omega
  rw [segStep_flush ⟨[], {}, false⟩ line hf hcond]
  have hne : ("" ++ line ++ "\n") ≠ "" := string_append_ne_empty _ (by decide)
  simp [hne]
  exact string_append_ne_empty _ (by decide)

/-- C4 counterexample: on a document consisting of one 4001-character line the
segmenter emits a leading unit with empty source text — the flush before
appending happens even though the buffer is empty, refuting both the claimed
non-emptiness guard and the claimed no-empty-unit consequence. -/
theorem seg_empty_unit_counterexample :
    ((extract_translation_units overlongDoc).map (fun u => u.original_text)).head?
      = some "" := by
  have h41 : (4001 : Nat) = 4000 + 1 := rfl
  have hsplit : splitlines overlongDoc = [overlongDoc] := by
    show splitlines (String.mk (List.replicate 4001 'a')) = [String.mk (List.replicate 4001 'a')]
    rw [h41]
    exact splitlines_replicate_a 4000
  have hfence : containsFence overlongDoc = false := by
    show listContains "```".data (List.replicate 4001 'a') = false
    exact listContains_fence_replicate_a 4001
  have hlong : overlongDoc.length > min_unit_length := by
    have hl : overlongDoc.length = 4001 := replicate_a_length 4001
    rw [hl]
    decide
  rw [extract_single_long_line overlongDoc overlongDoc hsplit hfence hlong]
  rfl

/-- Appending a newline yields a newline-terminated string. -/
theorem endsWithNewline_append_nl (s : String) : endsWithNewline (s ++ "\n") = true := by
  simp [endsWithNewline, String.data_append]

/-- Containment is preserved by prepending characters. -/
theorem listContains_append_right {sub l2 : List Char} (h : listContains sub l2 = true)
    (l1 : List Char) : listContains sub (l1 ++ l2) = true := by
  induction l1 with
  | nil => simpa using h
  | cons c cs ih =>
    simp [List.cons_append, listContains, ih]

/-- A string with a fence-marked suffix contains the fence marker. -/
theorem containsFence_append_right {line : String} (h : containsFence line = true)
    (s : String) : containsFence (s ++ line) = true := by
  simp only [containsFence, String.data_append]
  exact listContains_append_right h _

/-- One segmenter step preserves the invariant that the buffer is empty or
newline-terminated and every emitted unit is newline-terminated, empty, or a
code unit. -/
theorem segStep_newline (st : SegState) (line : String)
    (hcur : st.current.original_text = "" ∨ endsWithNewline st.current.original_text = true)
    (hinv : ∀ u ∈ st.units,
      endsWithNewline u.original_text = true ∨ u.original_text = "" ∨ is_code_block u = true) :
    ((segStep st line).current.original_text = "" ∨
      endsWithNewline (segStep st line).current.original_text = true) ∧
    ∀ u ∈ (segStep st line).units,
      endsWithNewline u.original_text = true ∨ u.original_text = "" ∨ is_code_block u = true := by
  by_cases hf : containsFence line = true
  · by_cases hic : st.in_code_block = true
    · refine ⟨?_, ?_⟩
      · simp [segStep, hf, hic]
      · intro u hu
        simp [segStep, hf, hic] at hu
        rcases hu with h | h
        · exact hinv u h
        · right; right
          rw [h]
          exact containsFence_append_right hf _
    · refine ⟨?_, ?_⟩
      · simp [segStep, hf, hic, endsWithNewline_append_nl]
      · intro u hu
        by_cases hemp : st.current.original_text = ""
        · simp [segStep, hf, hic, hemp] at hu
          exact hinv u hu
        · simp [segStep, hf, hic, hemp] at hu
          rcases hu with h | h
          · exact hinv u h
          · rw [h]
            rcases hcur with hc | hc
            · exact absurd hc hemp
            · exact .inl hc
  · by_cases hflush : st.current.original_text.length + line.length > min_unit_length
    · refine ⟨?_, ?_⟩
      · simp [segStep, hf, hflush, endsWithNewline_append_nl]
      · intro u hu
        simp [segStep, hf, hflush] at hu
        rcases hu with h | h
        · exact hinv u h
        · rw [h]
          rcases hcur with hc | hc
          · exact .inr (.inl hc)
          · exact .inl hc
    · refine ⟨?_, ?_⟩
      · simp [segStep, hf, hflush, endsWithNewline_append_nl]
      · intro u hu
        simp [segStep, hf, hflush] at hu
        exact hinv u hu

/-- The newline/code-unit invariant holds through the whole line loop. -/
theorem seg_foldl_newline (lines : List String) (st : SegState)
    (hcur : st.current.original_text = "" ∨ endsWithNewline st.current.original_text = true)
    (hinv : ∀ u ∈ st.units,
      endsWithNewline u.original_text = true ∨ u.original_text = "" ∨ is_code_block u = true) :
    ((lines.foldl segStep st).current.original_text = "" ∨
      endsWithNewline (lines.foldl segStep st).current.original_text = true) ∧
    ∀ u ∈ (lines.foldl segStep st).units,
      endsWithNewline u.original_text = true ∨ u.original_text = "" ∨ is_code_block u = true := by
  induction lines generalizing st with
  | nil => exact ⟨hcur, hinv⟩
  | cons l rest ih =>
    simp only [List.foldl_cons]
    have step := segStep_newline st l hcur hinv
    exact ih (segStep st l) step.1 step.2

/-- C5 (amended): every unit emitted by the segmenter has newline-terminated
source text, except that a unit closed by a code-fence line (a code unit)
ends with the fence line itself with no trailing newline, and (per C4) an
empty unit may occur; so each unit is newline-terminated, empty, or a code
unit. -/
theorem segmenter_units_newline_or_code (content : String) :
    ∀ u ∈ extract_translation_units content,
      endsWithNewline u.original_text = true ∨ u.original_text = "" ∨ is_code_block u = true := by
  have key := seg_foldl_newline (splitlines content) ⟨[], {}, false⟩ (by left; rfl) (by simp)
  simp only [extract_translation_units]
  split
  · intro u hu
    rcases List.mem_append.mp hu with hm | hm
    · exact key.2 u hm
    · simp at hm
      rw [hm]
      rename_i hcne
      rcases key.1 with hc | hc
      · exact absurd hc hcne
      · exact .inl hc
  · exact key.2

theorem segmenter_units_newline_or_code_witness :
    ({ original_text := "a\n" } : TranslationUnit) ∈ extract_translation_units "a\n" ∧
    (endsWithNewline ({ original_text := "a\n" } : TranslationUnit).original_text = true ∨
      ({ original_text := "a\n" } : TranslationUnit).original_text = "" ∨
      is_code_block { original_text := "a\n" } = true) :=
  ⟨by decide, segmenter_units_newline_or_code "a\n" _ (by decide)⟩

/-- C5 counterexample: the document "```\n```" yields exactly one unit, whose
source text "```\n```" is not newline-terminated — the closing fence line is
appended without a trailing newline. -/
theorem seg_fence_unit_counterexample :
    ((extract_translation_units "```\n```").map (fun u => u.original_text)) = ["```\n```"] ∧
    endsWithNewline "```\n```" = false := by
  constructor <;> decide

/-- After the pool drains, the results dict maps every submitted index to the
polished translation of its unit, regardless of completion order. -/
theorem collect_results_find (gw : Gateway) (terminology : List (String × String))
    (units : List TranslationUnit) (order : List Nat) (i : Nat) (u : TranslationUnit)
    (hmem : i ∈ order) (hget : units[i]? = some u) :
    (collect_results gw terminology units order).find? (fun p => p.1 == i) =
      some (i, (translate_unit gw terminology u).1.polished_translation) := by
  induction order with
  | nil => simp at hmem
  | cons j rest ih =>
    simp only [collect_results, List.filterMap_cons]
    by_cases hji : j = i
    · subst hji
      rw [hget]
      simp [process_unit]
    · have hmem' : i ∈ rest := by
        rcases List.mem_cons.mp hmem with h | h
        · exact absurd h.symm hji
        · exact h
      cases hgj : units[j]? with
      | none =>
        exact ih hmem'
      | some w =>
        simp only [Option.map_some', List.find?_cons, process_unit]
        rw [show ((j, (translate_unit gw terminology w).1.polished_translation).1 == i)
            = false from by simp [hji]]
        exact ih hmem'

/-- The write-back loop over indices whose lookups all succeed appends the
looked-up contents, each followed by the blank-line separator. -/
theorem write_results_foldlM (results : List (Nat × String)) (L : List Nat) (g : Nat → String)
    (hl : ∀ i ∈ L, ((results.find? (fun p => p.1 == i)).map (·.2)) = some (g i)) :
    ∀ s : String,
      (L.foldlM (fun file i =>
        ((results.find? (fun p => p.1 == i)).map (·.2)).map (append_to_output_file file)) s
        : Option String) =
      some (s ++ joinStrings (L.map (fun i => g i ++ "\n\n"))) := by
  induction L with
  | nil =>
    intro s
    simp [joinStrings]
  | cons i rest ih =>
    intro s
    simp only [List.foldlM_cons]
    rw [hl i (List.mem_cons_self i rest)]
    have hstep := ih (fun x hx => hl x (List.mem_cons_of_mem i hx))
      (append_to_output_file s (g i))
    exact hstep.trans (by simp [append_to_output_file, joinStrings, String.append_assoc])

/-- Mapping a function over positional lookups along `range` is mapping it
over the list. -/
theorem map_range_getD (l : List TranslationUnit) (d : TranslationUnit)
    (f : TranslationUnit → String) :
    (List.range l.length).map (fun i => f (l.getD i d)) = l.map f := by
  induction l with
  | nil => simp
  | cons a t ih =>
    rw [List.length_cons, List.range_succ_eq_map]
    simp only [List.map_cons, List.map_map, List.getD_cons_zero]
    congr 1

/-- C1: for any completion order that is a permutation of the unit indices,
the output file content produced by `_process_translation_units` is exactly
the concatenation, in original segmentation order, of each unit's polished
translation followed by a blank-line separator. -/
theorem process_translation_units_ordered (gw : Gateway)
    (terminology : List (String × String))
    (units : List TranslationUnit) (order : List Nat)
    (h : order.Perm (List.range units.length)) :
    process_translation_units gw terminology units order =
      some (joinStrings (units.map (fun u =>
        (translate_unit gw terminology u).1.polished_translation ++ "\n\n"))) := by
  unfold process_translation_units write_results
  have hfind : ∀ i ∈ List.range units.length,
      ((collect_results gw terminology units order).find? (fun p => p.1 == i)).map (·.2)
        = some ((translate_unit gw terminology (units.getD i default)).1.polished_translation) := by
    intro i hi
    have hlt : i < units.length := List.mem_range.mp hi
    have hmem : i ∈ order := h.mem_iff.mpr hi
    have hget : units[i]? = some (units.getD i default) := by
      rw [List.getElem?_eq_getElem hlt, List.getD_eq_getElem units default hlt]
    rw [collect_results_find gw terminology units order i _ hmem hget]
    rfl
  rw [write_results_foldlM (collect_results gw terminology units order)
    (List.range units.length)
    (fun i => (translate_unit gw terminology (units.getD i default)).1.polished_translation)
    hfind ""]
  have hbridge : (List.range units.length).map
      (fun i => (translate_unit gw terminology (units.getD i default)).1.polished_translation
        ++ "\n\n")
      = units.map (fun u => (translate_unit gw terminology u).1.polished_translation ++ "\n\n") :=
    map_range_getD units default
      (fun u => (translate_unit gw terminology u).1.polished_translation ++ "\n\n")
  rw [hbridge]
  congr 1

theorem process_translation_units_ordered_witness :
    ([1, 0] : List Nat).Perm (List.range
      ([{ original_text := "one" }, { original_text := "two" }] : List TranslationUnit).length) ∧
    process_translation_units demoGateway []
        [{ original_text := "one" }, { original_text := "two" }] [1, 0] =
      some (joinStrings
        (([{ original_text := "one" }, { original_text := "two" }] : List TranslationUnit).map
          (fun u => (translate_unit demoGateway [] u).1.polished_translation ++ "\n\n"))) :=
  ⟨by decide, process_translation_units_ordered demoGateway []
    [{ original_text := "one" }, { original_text := "two" }] [1, 0] (by decide)⟩
